import Mathlib

/-!
Shallow embedding of the soar package-manager core (registry/storage.rs and
the platform download path of soar-cli/download.rs), together with proofs of
the specification's testable properties.

Modelling conventions:
* Rust `String`/`&str` values are `List Char` (`Str`); `trim`, `to_lowercase`,
  `contains`, `split_once` and `trim_end_matches` are transcribed below.
* Rust `HashMap` values are association lists; the `HashMap` invariant that
  keys are distinct appears as an explicit `Nodup` hypothesis exactly where a
  keyed lookup (`map.get`) is performed.
* Fallible operations return `Except`/`Option`; interactive collaborators
  (variant selection, asset prompt) and the effectful per-package
  install/remove bodies are abstract function parameters.
-/

namespace Soar

/-- Rust string model: a string is its list of characters. -/
abbrev Str := List Char

/-- Embedding of Rust `str::trim_start`. -/
def trimStart (s : Str) : Str := s.dropWhile Char.isWhitespace

/-- Embedding of Rust `str::trim_end`. -/
def trimEnd (s : Str) : Str := (s.reverse.dropWhile Char.isWhitespace).reverse

/-- Embedding of Rust `str::trim`: whitespace removed from both ends. -/
def trim (s : Str) : Str := trimEnd (trimStart s)

/-- Embedding of Rust `str::to_lowercase` (character-wise lowering). -/
def toLowerStr (s : Str) : Str := s.map Char.toLower

/-- Embedding of Rust `str::contains(needle)`: substring containment. -/
def containsSub (needle : Str) : Str → Bool
  | [] => needle.isEmpty
  | c :: rest => needle.isPrefixOf (c :: rest) || containsSub needle rest

/-- Embedding of Rust `str::split_once(sep)`: split at the first occurrence
of `sep`, returning the parts before and after it. -/
def splitOnce (sep : Char) : Str → Option (Str × Str)
  | [] => none
  | c :: rest =>
    if c = sep then some ([], rest)
    else
      match splitOnce sep rest with
      | some pq => some (c :: pq.1, pq.2)
      | none => none

/-- Embedding of Rust `str::trim_end_matches(sep)`: strip every trailing
occurrence of `sep`. -/
def trimEndMatches (sep : Char) (s : Str) : Str :=
  (s.reverse.dropWhile (fun c => c = sep)).reverse

/-- Modelled from the spec: the `Package` struct lives in
`registry/package.rs`, which is not among the provided sources.  Per the
spec's data model it carries a name, an optional variant disambiguator, a
binary name, a download URL and a build-log URL; only `name` and `variant`
are consumed by the storage code verified here. -/
structure Package where
  name : Str
  variant : Option Str
  bin_name : Str
  download_url : Str
  build_log : Str
deriving DecidableEq

/-- Modelled from the spec: `PackageQuery` is produced by
`parse_package_query` (external collaborator); the storage code consumes its
`name`, optional `collection` and optional `variant` fields. -/
structure PackageQuery where
  name : Str
  collection : Option Str
  variant : Option Str
deriving DecidableEq

/-- Modelled from the spec: a resolution result — repository name, collection
name and one concrete package (`ResolvedPackage` in `registry/package.rs`). -/
structure ResolvedPackage where
  repo_name : Str
  collection : Str
  package : Package
deriving DecidableEq

/-- One repository's data: collection name → package name → packages
(`RepositoryPackages` in storage.rs, `HashMap`s as association lists). -/
structure RepositoryPackages where
  collection : List (Str × List (Str × List Package))
deriving DecidableEq

/-- The registry: repository name → repository data (`PackageStorage`). -/
structure PackageStorage where
  repository : List (Str × RepositoryPackages)
deriving DecidableEq

/-- Embedding of `PackageStorage::new`. -/
def PackageStorage.new : PackageStorage := ⟨[]⟩

/-- Embedding of `PackageStorage::add_repository`: `HashMap::insert`
overwrites any entry with the same key. -/
def addRepository (st : PackageStorage) (repo_name : Str)
    (packages : RepositoryPackages) : PackageStorage :=
  ⟨(repo_name, packages) :: st.repository.filter fun e => e.1 ≠ repo_name⟩

/-- The body of `PackageStorage::get_packages` before the emptiness check:
iterate repositories, keep collections allowed by the query's collection
qualifier, look the trimmed name up in the per-collection map, and keep the
packages whose name equals it and whose variant passes the variant
qualifier. -/
def collectQueryMatches (st : PackageStorage) (query : PackageQuery) :
    List ResolvedPackage :=
  let pkg_name := trim query.name
  st.repository.flatMap fun rp =>
    ((rp.2.collection.filter fun ck =>
        query.collection.isNone || some ck.1 == query.collection).flatMap
      fun ckm =>
        (List.lookup pkg_name ckm.2).toList.flatMap fun pkgs =>
          pkgs.filterMap fun pkg =>
            if pkg.name == pkg_name
                && (query.variant.isNone || pkg.variant == query.variant) then
              some ⟨rp.1, ckm.1, pkg⟩
            else none)

/-- Embedding of `PackageStorage::get_packages`: `None` when no package
matched, otherwise `Some` of the non-empty match list. -/
def getPackages (st : PackageStorage) (query : PackageQuery) :
    Option (List ResolvedPackage) :=
  let resolved_packages := collectQueryMatches st query
  if resolved_packages.isEmpty then none else some resolved_packages

/-- Errors of `resolve_package`: the "not found" failure, the (dead)
empty-list failure, and failures bubbled up from interactive variant
selection. -/
inductive ResolveError (ε : Type) where
  | notFound : ResolveError ε
  | emptyResult : ResolveError ε
  | selection : ε → ResolveError ε
deriving DecidableEq

/-- Embedding of `PackageStorage::resolve_package` (the query is taken
already parsed, `parse_package_query` being an external collaborator;
`select_package_variant` is the abstract interactive parameter
`selectVariant`). -/
def resolvePackage (selectVariant : List ResolvedPackage → Except ε ResolvedPackage)
    (st : PackageStorage) (query : PackageQuery) :
    Except (ResolveError ε) ResolvedPackage :=
  match getPackages st query with
  | none => .error .notFound
  | some packages =>
    match packages with
    | [] => .error .emptyResult
    | [pkg] => .ok ⟨pkg.repo_name, pkg.collection, pkg.package⟩
    | _ =>
      match selectVariant packages with
      | .error e => .error (.selection e)
      | .ok pkg => .ok pkg

/-- Embedding of the resolution prologue of `install_packages`:
`package_names.iter().map(resolve_package).collect::<Result<Vec<_>>>()`,
which stops at the first resolution error. -/
def resolveAll (selectVariant : List ResolvedPackage → Except ε ResolvedPackage)
    (st : PackageStorage) :
    List PackageQuery → Except (ResolveError ε) (List ResolvedPackage)
  | [] => .ok []
  | q :: qs =>
    match resolvePackage selectVariant st q with
    | .error e => .error e
    | .ok p =>
      match resolveAll selectVariant st qs with
      | .error e => .error e
      | .ok ps => .ok (p :: ps)

/-- Embedding of the sequential install loop: packages are installed in
index order; an install failure is logged and skipped while a success bumps
the installed counter.  `installOne` abstracts `ResolvedPackage::install`
(receiving the index, the batch length, the package and the shared
installed-packages record; the `force`/`is_update`/portable flags are
batch constants absorbed into it) and returns the success flag together
with the updated record. -/
def runSequential (installOne : Nat → Nat → ResolvedPackage → α → Bool × α)
    (total : Nat) : Nat → α → List ResolvedPackage → α × Nat
  | _, record, [] => (record, 0)
  | idx, record, p :: rest =>
    let step := installOne idx total p record
    let restRun := runSequential installOne total (idx + 1) step.2 rest
    (restRun.1, (if step.1 then 1 else 0) + restRun.2)

/-- Observable outcome of `install_packages`: the final shared record, the
packages on which an install was attempted, the printed
`Installed succeeded/attempted` report, and the resolution failure (if
any). -/
structure InstallReport (ε α : Type) where
  record : α
  attempts : List ResolvedPackage
  reported : Option (Nat × Nat)
  failure : Option (ResolveError ε)
deriving DecidableEq

/-- Embedding of `PackageStorage::install_packages`: resolve the whole batch
up front (failing fast on the first unresolvable name, before any install),
then run every install and print the succeeded/attempted count.  The
execution loop is transcribed from the sequential branch; the
bounded-parallel branch runs the same per-package installs and shares the
resolution prologue and the final report, its permit pool and completion
orders being modelled separately by `poolExec` and
`parallelInstallCount`. -/
def installPackages (selectVariant : List ResolvedPackage → Except ε ResolvedPackage)
    (installOne : Nat → Nat → ResolvedPackage → α → Bool × α)
    (st : PackageStorage) (package_names : List PackageQuery) (record : α) :
    InstallReport ε α :=
  match resolveAll selectVariant st package_names with
  | .error e => ⟨record, [], none, some e⟩
  | .ok resolved =>
    let run := runSequential installOne resolved.length 0 record resolved
    ⟨run.1, resolved, some (run.2, resolved.length), none⟩

/-- Count of successful installs accumulated by the shared atomic counter of
the bounded-parallel branch, as a function of the order in which the spawned
tasks complete (`completed` is some permutation of the resolved batch). -/
def parallelInstallCount (outcome : ResolvedPackage → Bool)
    (completed : List ResolvedPackage) : Nat :=
  completed.foldl (fun n p => if outcome p then n + 1 else n) 0

/-- Embedding of the removal loop of `remove_packages`:
`package.remove().await?` propagates the first removal error, so it returns
the packages removed before the failure together with that failure.
`removeOne` abstracts `ResolvedPackage::remove`. -/
def removeResolved (removeOne : ResolvedPackage → Except ρ Unit) :
    List ResolvedPackage → List ResolvedPackage × Option ρ
  | [] => ([], none)
  | p :: rest =>
    match removeOne p with
    | .error e => ([], some e)
    | .ok _ =>
      let r := removeResolved removeOne rest
      (p :: r.1, r.2)

/-- Embedding of the resolution prologue of `remove_packages`:
`filter_map(|name| resolve_package(name).ok())` silently drops every name
whose resolution fails. -/
def resolvedForRemoval (selectVariant : List ResolvedPackage → Except ε ResolvedPackage)
    (st : PackageStorage) (package_names : List PackageQuery) :
    List ResolvedPackage :=
  package_names.filterMap fun q => (resolvePackage selectVariant st q).toOption

/-- Embedding of `PackageStorage::remove_packages`. -/
def removePackages (selectVariant : List ResolvedPackage → Except ε ResolvedPackage)
    (removeOne : ResolvedPackage → Except ρ Unit)
    (st : PackageStorage) (package_names : List PackageQuery) :
    List ResolvedPackage × Option ρ :=
  removeResolved removeOne (resolvedForRemoval selectVariant st package_names)

/-- Embedding of `PackageStorage::list_packages`: flatten every repository,
keeping only the collections allowed by the optional collection filter. -/
def listPackages (st : PackageStorage) (collection : Option Str) :
    List ResolvedPackage :=
  st.repository.flatMap fun rp =>
    ((rp.2.collection.filter fun ce =>
        collection.isNone || some ce.1 == collection).flatMap fun ce =>
      ce.2.flatMap fun ne => ne.2.map fun package => ⟨rp.1, ce.1, package⟩)

/-- Every package occurrence of one repository's collection map, tagged with
the repository name — the right-hand side of the round-trip property. -/
def allOccurrences (repo_name : Str) (packages : RepositoryPackages) :
    List ResolvedPackage :=
  packages.collection.flatMap fun ce =>
    ce.2.flatMap fun ne => ne.2.map fun p => ⟨repo_name, ce.1, p⟩

/-- The query name `search` compares against: trimmed, and lower-cased
unless the search is case-sensitive. -/
def searchQueryName (query : PackageQuery) (case_sensitive : Bool) : Str :=
  if case_sensitive then trim query.name else toLowerStr (trim query.name)

/-- The package-name view `search` scores: the name itself when
case-sensitive, otherwise its lower-casing (`found_pkg_name` in the
source). -/
def caseName (case_sensitive : Bool) (pkg : Package) : Str :=
  if case_sensitive then pkg.name else toLowerStr pkg.name

/-- The scoring loop of `PackageStorage::search`: every package of every
repository/collection is scored 2 on exact name match, 1 on substring
containment, and dropped otherwise; a package surviving scoring is then
dropped unless it passes the variant qualifier (compared exactly, never
case-adjusted).  Entries are `(score, package, collection, repository)`
exactly as in the source. -/
def collectScored (st : PackageStorage) (pkg_name : Str)
    (case_sensitive : Bool) (variant : Option Str) :
    List (Nat × Package × Str × Str) :=
  st.repository.flatMap fun rp =>
    rp.2.collection.flatMap fun ce =>
      ce.2.flatMap fun ne =>
        ne.2.filterMap fun pkg =>
          let score :=
            if caseName case_sensitive pkg == pkg_name then some 2
            else if containsSub pkg_name (caseName case_sensitive pkg) then some 1
            else none
          score.bind fun s =>
            if variant.isNone || pkg.variant == variant then
              some (s, pkg, ce.1, rp.1)
            else none

/-- Stable insertion into a list sorted by strictly descending score: the
inserted element goes before the first element whose score does not exceed
it, so among equal scores earlier-encountered entries stay first. -/
def insertScoredDesc (x : Nat × Package × Str × Str) :
    List (Nat × Package × Str × Str) → List (Nat × Package × Str × Str)
  | [] => [x]
  | y :: ys => if y.1 ≤ x.1 then x :: y :: ys else y :: insertScoredDesc x ys

/-- Embedding of `resolved_packages.sort_by(|a, b| b.cmp(a))`: Rust's
`sort_by` is a stable sort, here by descending score; transcribed as a
stable insertion sort with the same observable contract. -/
def sortScoredDesc :
    List (Nat × Package × Str × Str) → List (Nat × Package × Str × Str)
  | [] => []
  | x :: xs => insertScoredDesc x (sortScoredDesc xs)

/-- Embedding of `PackageStorage::search` (the query is taken already
parsed): trim (and lower-case unless case-sensitive) the query name, score
every package, sort stably by descending score, drop non-positive scores
and strip the scores. -/
def search (st : PackageStorage) (query : PackageQuery) (case_sensitive : Bool) :
    List ResolvedPackage :=
  let resolved_packages :=
    collectScored st (searchQueryName query case_sensitive) case_sensitive
      query.variant
  ((sortScoredDesc resolved_packages).filter fun e => 0 < e.1).map fun e =>
    ⟨e.2.2.2, e.2.2.1, e.2.1⟩

/-- Embedding of the project/tag split of `handle_platform_download`:
`project.trim().split_once('@')` (first `@` of the trimmed string), keeping
the trimmed tag when it is non-empty, and otherwise returning the original
string with trailing `@`s stripped and no tag. -/
def splitProjectTag (project : Str) : Str × Option Str :=
  match splitOnce '@' (trim project) with
  | some pt =>
    if (trim pt.2).isEmpty then (trimEndMatches '@' project, none)
    else (pt.1, some (trim pt.2))
  | none => (trimEndMatches '@' project, none)

/-- Split at the last occurrence of `sep` (first occurrence in the reversed
string). -/
def splitOnceLast (sep : Char) (s : Str) : Option (Str × Str) :=
  match splitOnce sep s.reverse with
  | some pr => some (pr.2.reverse, pr.1.reverse)
  | none => none

/-- The project/tag split as the claim words it — splitting on the LAST
`@` — kept otherwise identical to `splitProjectTag`, for comparison with
the source's first-`@` behaviour. -/
def claimSplitProjectTag (project : Str) : Str × Option Str :=
  match splitOnceLast '@' (trim project) with
  | some pt =>
    if (trim pt.2).isEmpty then (trimEndMatches '@' project, none)
    else (pt.1, some (trim pt.2))
  | none => (trimEndMatches '@' project, none)

/-- The auto-selection guard of `handle_platform_download`:
`assets.len() == 1 || ctx.yes`. -/
def assetAutoSelect (assetsLen : Nat) (yes : Bool) : Bool :=
  assetsLen == 1 || yes

/-- Guarded embedding of the asset choice of `handle_platform_download`:
when the auto-selection guard holds the code indexes `assets[0]` (an
out-of-bounds access — a panic in the source — becomes `none` here),
otherwise it defers to the interactive selector. -/
def chooseSelectedAsset (assets : List α) (yes : Bool)
    (interactiveChoice : List α → Option α) : Option α :=
  if assets.length == 1 || yes then assets[0]? else interactiveChoice assets

/-- Phase of one spawned install task with respect to its semaphore permit:
not yet started, holding its permit (the install — the `Installing` state —
runs entirely inside this phase), or finished with the permit dropped. -/
inductive TaskPhase where
  | pending : TaskPhase
  | holding : TaskPhase
  | done : TaskPhase
deriving DecidableEq

/-- Events of the bounded-parallel pool: a task acquires its permit (the
main loop blocks until the semaphore has capacity), or a task finishes its
install — successfully or with a logged error — and drops its permit. -/
inductive PoolEvent where
  | acquire : Nat → PoolEvent
  | finish : Nat → Bool → PoolEvent
deriving DecidableEq

/-- Number of tasks currently holding a permit. -/
def holdingCount (st : List TaskPhase) : Nat :=
  st.countP fun p => p == TaskPhase.holding

/-- One step of the permit pool: `acquire i` is enabled only when task `i`
has not started and fewer than `cap` permits are out (the semaphore guard);
`finish i b` (with success flag `b`) is enabled only when task `i` holds its
permit, and drops it.  Disabled events yield `none`. -/
def poolStep (cap : Nat) (st : List TaskPhase) : PoolEvent → Option (List TaskPhase)
  | .acquire i =>
    match st[i]? with
    | some TaskPhase.pending =>
      if holdingCount st < cap then some (st.set i TaskPhase.holding) else none
    | _ => none
  | .finish i _ =>
    match st[i]? with
    | some TaskPhase.holding => some (st.set i TaskPhase.done)
    | _ => none

/-- Run a sequence of pool events from a state; `none` if any event fires
while disabled. -/
def poolExec (cap : Nat) : List TaskPhase → List PoolEvent → Option (List TaskPhase)
  | st, [] => some st
  | st, e :: es =>
    match poolStep cap st e with
    | some st' => poolExec cap st' es
    | none => none

/-- Initial pool state for `m` resolved packages: every task pending. -/
def initialPool (m : Nat) : List TaskPhase := List.replicate m TaskPhase.pending

/-- Embedding of `Semaphore::new(CONFIG.parallel_limit.unwrap_or(2))`: the
configured capacity, defaulting to 2. -/
def semaphoreCapacity (parallel_limit : Option Nat) : Nat :=
  parallel_limit.getD 2

/-- Number of permit-dropping events of task `i` in an event sequence. -/
def finishCountFor (i : Nat) (events : List PoolEvent) : Nat :=
  events.countP fun e =>
    match e with
    | .finish j _ => j == i
    | _ => false

/-! Concrete sample data used by counterexamples and witnesses. -/

/-- Sample string "foo". -/
def strFoo : Str := "foo".toList

/-- Sample string "baz". -/
def strBaz : Str := "baz".toList

/-- Sample string "bar". -/
def strBar : Str := "bar".toList

/-- Sample repository name. -/
def strR : Str := "r".toList

/-- Sample collection name. -/
def strC : Str := "c".toList

/-- Sample string "a". -/
def strA : Str := "a".toList

/-- Sample string "b@c". -/
def strBC : Str := "b@c".toList

/-- Sample string "a@b". -/
def strAB : Str := "a@b".toList

/-- Sample string "a@b@c", with two at-signs. -/
def strABC : Str := "a@b@c".toList

/-- Project string with a requested tag. -/
def strOwnerRepoTag : Str := "owner/repo@v1.2.0".toList

/-- Project string with an empty tag. -/
def strOwnerRepoAt : Str := "owner/repo@".toList

/-- Bare project string. -/
def strOwnerRepo : Str := "owner/repo".toList

/-- Sample tag. -/
def strV120 : Str := "v1.2.0".toList

/-- Sample package named "foo". -/
def pkgFoo : Package := ⟨strFoo, none, strFoo, [], []⟩

/-- Sample package named "baz". -/
def pkgBaz : Package := ⟨strBaz, none, strBaz, [], []⟩

/-- Query for "foo", no qualifiers. -/
def qFoo : PackageQuery := ⟨strFoo, none, none⟩

/-- Query for "baz", no qualifiers. -/
def qBaz : PackageQuery := ⟨strBaz, none, none⟩

/-- Resolution of `pkgFoo` in repository "r", collection "c". -/
def rpFoo : ResolvedPackage := ⟨strR, strC, pkgFoo⟩

/-- Resolution of `pkgBaz` in repository "r", collection "c". -/
def rpBaz : ResolvedPackage := ⟨strR, strC, pkgBaz⟩

/-- Registry holding `pkgFoo` under its own name. -/
def stGood : PackageStorage := ⟨[(strR, ⟨[(strC, [(strFoo, [pkgFoo])])]⟩)]⟩

/-- Registry holding `pkgFoo` and `pkgBaz` under their own names. -/
def stTwo : PackageStorage :=
  ⟨[(strR, ⟨[(strC, [(strFoo, [pkgFoo]), (strBaz, [pkgBaz])])]⟩)]⟩

/-- Registry holding `pkgFoo` (whose name is "foo") under the key "bar". -/
def stMisKeyed : PackageStorage := ⟨[(strR, ⟨[(strC, [(strBar, [pkgFoo])])]⟩)]⟩

/-- Interactive variant selector that always declines. -/
def selW : List ResolvedPackage → Except Unit ResolvedPackage := fun _ => .error ()

/-- Removal that fails exactly on packages named "foo". -/
def removeFailFoo : ResolvedPackage → Except Unit Unit :=
  fun rp => if rp.package.name = strFoo then .error () else .ok ()

/-- Per-package install outcome that always succeeds. -/
def outcomeTrue : ResolvedPackage → Bool := fun _ => true

/-- Install implementation that always succeeds and leaves the record. -/
def installOneW : Nat → Nat → ResolvedPackage → Unit → Bool × Unit :=
  fun _ _ _ _ => (true, ())

/-- Sample pool schedule: two tasks acquire, install and release under
capacity 2. -/
def eventsW : List PoolEvent :=
  [.acquire 0, .acquire 1, .finish 0 true, .finish 1 false]

/-- Final pool state of `eventsW`: both tasks done. -/
def poolW : List TaskPhase := [TaskPhase.done, TaskPhase.done]

/-- Matching predicate of the claim as stated: a package occurrence anywhere
in the registry whose name equals the trimmed query name and which passes
the collection and variant qualifiers — with NO condition relating the
collection-map key it is stored under to the query name. -/
def ClaimMatch (st : PackageStorage) (query : PackageQuery)
    (rp : ResolvedPackage) : Prop :=
  ∃ re ∈ st.repository, ∃ ce ∈ re.2.collection, ∃ nameEntry ∈ ce.2,
    rp.repo_name = re.1 ∧ rp.collection = ce.1 ∧
    (query.collection = none ∨ query.collection = some ce.1) ∧
    rp.package ∈ nameEntry.2 ∧ rp.package.name = trim query.name ∧
    (query.variant = none ∨ rp.package.variant = query.variant)

/-- Matching predicate of the amended claim: additionally the package must
be stored under the collection-map key equal to the trimmed query name
(`map.get(pkg_name)` in the source). -/
def KeyedMatch (st : PackageStorage) (query : PackageQuery)
    (rp : ResolvedPackage) : Prop :=
  ∃ re ∈ st.repository, ∃ ce ∈ re.2.collection, ∃ nameEntry ∈ ce.2,
    rp.repo_name = re.1 ∧ rp.collection = ce.1 ∧
    (query.collection = none ∨ query.collection = some ce.1) ∧
    nameEntry.1 = trim query.name ∧
    rp.package ∈ nameEntry.2 ∧ rp.package.name = trim query.name ∧
    (query.variant = none ∨ rp.package.variant = query.variant)

/-- Presence of a package occurrence in the registry under repository `r`
and collection `c`, under any name key. -/
def InRegistry (st : PackageStorage) (r c : Str) (p : Package) : Prop :=
  ∃ re ∈ st.repository, re.1 = r ∧ ∃ ce ∈ re.2.collection, ce.1 = c ∧
    ∃ nameEntry ∈ ce.2, p ∈ nameEntry.2

/-! Theorems. -/

/-- C9: `get_packages` never returns `Some` of an empty list, so the
zero-length branch of `resolve_package` is unreachable (the result is never
its error), and a successful resolution either returns the unique match
directly or is the value delegated to interactive variant selection on a
multi-element match list. -/
theorem resolve_never_empty_match_list
    (selectVariant : List ResolvedPackage → Except ε ResolvedPackage)
    (st : PackageStorage) (query : PackageQuery) :
    (∀ l, getPackages st query = some l → l ≠ []) ∧
    (resolvePackage selectVariant st query ≠ .error .emptyResult) ∧
    (∀ p, resolvePackage selectVariant st query = .ok p →
      getPackages st query = some [p] ∨
      ∃ l, getPackages st query = some l ∧ 2 ≤ l.length ∧
        selectVariant l = .ok p) := by
  have hne : ∀ l, getPackages st query = some l → l ≠ [] := by
    intro l hl
    unfold getPackages at hl
    by_cases h : (collectQueryMatches st query).isEmpty
    · simp [h] at hl
    · simp [h] at hl
      subst hl
      simpa [List.isEmpty_iff] using h
  refine ⟨hne, ?_, ?_⟩
  · unfold resolvePackage
    cases hg : getPackages st query with
    | none => simp
    | some packages =>
      have := hne packages hg
      cases packages with
      | nil => exact absurd rfl this
      | cons p rest =>
        cases rest with
        | nil => simp
        | cons p2 rest2 =>
          cases hs : selectVariant (p :: p2 :: rest2) with
          | error e => simp [hs]
          | ok q => simp [hs]
  · intro p hp
    unfold resolvePackage at hp
    cases hg : getPackages st query with
    | none => rw [hg] at hp; simp at hp
    | some packages =>
      rw [hg] at hp
      cases packages with
      | nil => simp at hp
      | cons p1 rest =>
        cases rest with
        | nil =>
          left
          dsimp only at hp
          have hp2 : p1 = p := by injection hp
          subst hp2
          rfl
        | cons p2 rest2 =>
          right
          dsimp only at hp
          cases hs : selectVariant (p1 :: p2 :: rest2) with
          | error e => rw [hs] at hp; simp at hp
          | ok q =>
            rw [hs] at hp
            dsimp only at hp
            have hq : q = p := by injection hp
            subst hq
            exact ⟨p1 :: p2 :: rest2, rfl, by simp, hs⟩

/-- Witness for C9: on a registry with a unique match, a successful
resolution is the direct return of that match. -/
theorem resolve_never_empty_match_list_witness :
    getPackages stGood qFoo = some [rpFoo] ∨
    ∃ l, getPackages stGood qFoo = some l ∧ 2 ≤ l.length ∧
      selW l = .ok rpFoo :=
  (resolve_never_empty_match_list selW stGood qFoo).2.2 rpFoo (by rfl)

/-- C7: loading one repository's collection map into the empty registry and
listing with no filter returns every package occurrence exactly once (a
multiset round-trip, no deduplication, no omission). -/
theorem add_repository_list_round_trip (repo_name : Str)
    (packages : RepositoryPackages) :
    (listPackages (addRepository PackageStorage.new repo_name packages)
        none).Perm (allOccurrences repo_name packages) := by
  unfold listPackages addRepository PackageStorage.new allOccurrences
  simp

/-- C10: with an empty filtered asset list and the assume-yes flag set, the
auto-selection guard of `handle_platform_download` fires and `assets[0]` is
out of bounds (the guarded embedding returns `none`, never consulting the
interactive selector) — the panic branch is reachable. -/
theorem empty_assets_with_assume_yes_out_of_bounds :
    ∀ interactiveChoice : List Unit → Option Unit,
      chooseSelectedAsset ([] : List Unit) true interactiveChoice = none ∧
      assetAutoSelect 0 true = true := by
  intro ic
  exact ⟨rfl, rfl⟩

/-- Splitting at the first separator occurrence decomposes the string: the
prefix is separator-free and the string is prefix, separator, suffix. -/
theorem splitOnce_eq_some (sep : Char) :
    ∀ s pre post, splitOnce sep s = some (pre, post) →
      s = pre ++ sep :: post ∧ sep ∉ pre := by
  intro s
  induction s with
  | nil => intro pre post h; simp [splitOnce] at h
  | cons c rest ih =>
    intro pre post h
    unfold splitOnce at h
    by_cases hc : c = sep
    · rw [if_pos hc] at h
      obtain ⟨h1, h2⟩ := Prod.mk.injEq .. ▸ (Option.some.injEq .. ▸ h :)
      subst hc
      simp at h
      obtain ⟨h1, h2⟩ := h
      subst h1; subst h2
      simp
    · rw [if_neg hc] at h
      cases hsp : splitOnce sep rest with
      | none => rw [hsp] at h; simp at h
      | some pq =>
        rw [hsp] at h
        simp at h
        obtain ⟨h1, h2⟩ := h
        obtain ⟨hdec, hnotin⟩ := ih pq.1 pq.2 (by rw [hsp])
        subst h2
        constructor
        · rw [← h1]; simp [hdec]
        · rw [← h1]
          simp [hnotin]
          exact fun h => hc (h.symm ▸ rfl)

/-- Counterexample for C5: the source splits `"a@b@c"` at the FIRST `@`
(project `"a"`, tag `"b@c"`), not at the last `@` as the claim states
(which would give project `"a@b"`, tag `"c"`). -/
theorem split_project_tag_last_at_refuted :
    splitProjectTag strABC = (strA, some strBC) ∧
    claimSplitProjectTag strABC = (strAB, some strC) ∧
    splitProjectTag strABC ≠ claimSplitProjectTag strABC := by decide

/-- C5 amended: platform project strings are split into project and tag on
the FIRST `@` of the trimmed string, the tag text is trimmed, and an empty
tag after trimming is treated as no tag requested; `"owner/repo@v1.2.0"`
yields `("owner/repo", "v1.2.0")` and `"owner/repo@"` yields
`("owner/repo", no tag)`. -/
theorem split_project_tag_first_at :
    splitProjectTag strOwnerRepoTag = (strOwnerRepo, some strV120) ∧
    splitProjectTag strOwnerRepoAt = (strOwnerRepo, none) ∧
    ∀ s p t, splitProjectTag s = (p, some t) →
      '@' ∉ p ∧ ∃ rest, trim s = p ++ '@' :: rest ∧ t = trim rest ∧
        trim rest ≠ [] := by
  refine ⟨by decide, by decide, ?_⟩
  intro s p t h
  unfold splitProjectTag at h
  cases hsp : splitOnce '@' (trim s) with
  | none => rw [hsp] at h; simp at h
  | some pt =>
    rw [hsp] at h
    dsimp only at h
    by_cases he : (trim pt.2).isEmpty
    · simp [he] at h
    · simp [he] at h
      obtain ⟨h1, h2⟩ := h
      obtain ⟨hdec, hnotin⟩ := splitOnce_eq_some '@' (trim s) pt.1 pt.2 (by rw [hsp])
      subst h1
      refine ⟨hnotin, pt.2, hdec, h2.symm, ?_⟩
      simpa [List.isEmpty_iff] using he

/-- Witness for C5: the general first-`@` decomposition evaluated at
`"owner/repo@v1.2.0"`. -/
theorem split_project_tag_first_at_witness :
    '@' ∉ strOwnerRepo ∧ ∃ rest, trim strOwnerRepoTag = strOwnerRepo ++ '@' :: rest ∧
      strV120 = trim rest ∧ trim rest ≠ [] :=
  split_project_tag_first_at.2.2 strOwnerRepoTag strOwnerRepo strV120 (by decide)

/-- Association-list lookup with distinct keys finds a value exactly when
the pair is a member (the `HashMap::get` contract). -/
theorem lookup_iff_mem {β : Type} {l : List (Str × β)} {k : Str} {v : β}
    (h : (l.map Prod.fst).Nodup) :
    List.lookup k l = some v ↔ (k, v) ∈ l := by
  induction l with
  | nil => simp [List.lookup]
  | cons a l ih =>
    obtain ⟨a1, a2⟩ := a
    simp only [List.map_cons, List.nodup_cons, List.mem_map] at h
    obtain ⟨hnotin, hnd⟩ := h
    rw [List.lookup_cons]
    cases hbeq : k == a1 with
    | false =>
      have hne : k ≠ a1 := by simpa using hbeq
      dsimp only
      rw [ih hnd]
      simp only [List.mem_cons]
      constructor
      · intro hl; exact Or.inr hl
      · intro hl
        cases hl with
        | inl heq =>
          exact absurd (congrArg Prod.fst heq) hne
        | inr hl => exact hl
    | true =>
      have hk : k = a1 := by simpa using hbeq
      subst hk
      dsimp only
      constructor
      · intro hv
        have hva : a2 = v := by injection hv
        rw [← hva]
        exact List.mem_cons_self _ _
      · intro hl
        rcases List.mem_cons.mp hl with heq | hmem2
        · have hv : v = a2 := congrArg Prod.snd heq
          rw [hv]
        · exact absurd ⟨(k, v), hmem2, rfl⟩ hnotin

/-- Membership in the match list collected by `get_packages` is exactly the
amended matching predicate, under the `HashMap` invariant that each
collection map has distinct keys. -/
theorem mem_collectQueryMatches_iff (st : PackageStorage) (query : PackageQuery)
    (hkeys : ∀ re ∈ st.repository, ∀ ce ∈ re.2.collection,
      (ce.2.map Prod.fst).Nodup)
    (rp : ResolvedPackage) :
    rp ∈ collectQueryMatches st query ↔ KeyedMatch st query rp := by
  unfold collectQueryMatches KeyedMatch
  simp only [List.mem_flatMap, List.mem_filter, List.mem_filterMap,
    Option.mem_toList, Option.mem_def, Bool.or_eq_true, Bool.and_eq_true,
    Option.isNone_iff_eq_none, beq_iff_eq,
    Option.ite_none_right_eq_some, Option.some.injEq]
  constructor
  · rintro ⟨re, hre, ckm, ⟨hckm, hcoll⟩, pkgs, hlk, pkg, hpkg,
      ⟨hname, hvar⟩, hrp⟩
    have hmem := (lookup_iff_mem (hkeys re hre ckm hckm)).mp hlk
    refine ⟨re, hre, ckm, hckm, (trim query.name, pkgs), hmem, ?_⟩
    subst hrp
    refine ⟨rfl, rfl, ?_, rfl, hpkg, hname, ?_⟩
    · cases hcoll with
      | inl h => exact Or.inl h
      | inr h => exact Or.inr h.symm
    · cases hvar with
      | inl h => exact Or.inl h
      | inr h => exact Or.inr h
  · rintro ⟨re, hre, ce, hce, nameEntry, hne, hrepo, hcoll, hq, hkey,
      hpmem, hname, hvar⟩
    refine ⟨re, hre, ce, ⟨hce, ?_⟩, nameEntry.2, ?_, rp.package, hpmem,
      ⟨hname, ?_⟩, ?_⟩
    · cases hq with
      | inl h => exact Or.inl h
      | inr h => exact Or.inr h.symm
    · have : (trim query.name, nameEntry.2) ∈ ce.2 := by
        have := hne
        rwa [show nameEntry = (nameEntry.1, nameEntry.2) from rfl, hkey] at this
      exact (lookup_iff_mem (hkeys re hre ce hce)).mpr this
    · cases hvar with
      | inl h => exact Or.inl h
      | inr h => exact Or.inr h
    · rw [← hrepo, ← hcoll]

/-- Counterexample for C1: in a registry where a package named "foo" is
stored under the collection-map key "bar", the query "foo" matches the
claim's name-based predicate, yet `get_packages` returns `None`. -/
theorem get_packages_name_only_match_refuted :
    ClaimMatch stMisKeyed qFoo rpFoo ∧ getPackages stMisKeyed qFoo = none := by
  constructor
  · exact ⟨(strR, ⟨[(strC, [(strBar, [pkgFoo])])]⟩), by decide,
      (strC, [(strBar, [pkgFoo])]), by decide, (strBar, [pkgFoo]), by decide,
      by decide, by decide, Or.inl (by decide), by decide, by decide,
      Or.inl (by decide)⟩
  · decide

/-- C1 amended: for every registry and parsed query, `get_packages(Q)`
returns exactly the packages stored under the collection-map key equal to
Q.name after trimming whose own name equals it, restricted to Q's
collection qualifier (exact match) when present and variant qualifier
(exact match) when present; it returns `None` exactly when no package so
matches, and a `Some(list)` contains all and only the matching
(repository, collection, package) triples.  The hypothesis is the `HashMap`
invariant: each collection map has distinct keys. -/
theorem get_packages_keyed_exactness (st : PackageStorage)
    (query : PackageQuery)
    (hkeys : ∀ re ∈ st.repository, ∀ ce ∈ re.2.collection,
      (ce.2.map Prod.fst).Nodup) :
    (getPackages st query = none ↔ ∀ rp, ¬ KeyedMatch st query rp) ∧
    (∀ l, getPackages st query = some l →
      ∀ rp, (rp ∈ l ↔ KeyedMatch st query rp)) := by
  have hmem := mem_collectQueryMatches_iff st query hkeys
  constructor
  · unfold getPackages
    by_cases h : (collectQueryMatches st query).isEmpty
    · simp only [h, if_true]
      have hnil : collectQueryMatches st query = [] := List.isEmpty_iff.mp h
      simp only [true_iff]
      intro rp hk
      have : rp ∈ collectQueryMatches st query := (hmem rp).mpr hk
      rw [hnil] at this
      exact absurd this (List.not_mem_nil rp)
    · simp only [h, if_false]
      have hnonnil : collectQueryMatches st query ≠ [] := by
        simpa [List.isEmpty_iff] using h
      constructor
      · intro hc; exact absurd hc (by simp)
      · intro hall
        obtain ⟨x, hx⟩ := List.exists_mem_of_ne_nil _ hnonnil
        exact absurd ((hmem x).mp hx) (hall x)
  · intro l hl rp
    unfold getPackages at hl
    by_cases h : (collectQueryMatches st query).isEmpty
    · simp [h] at hl
    · rw [if_neg h] at hl
      have hl2 : collectQueryMatches st query = l := by injection hl
      subst hl2
      exact hmem rp

/-- Witness for C1: on a correctly keyed registry the match list of the
query "foo" contains exactly its resolution. -/
theorem get_packages_keyed_exactness_witness :
    rpFoo ∈ [rpFoo] ↔ KeyedMatch stGood qFoo rpFoo :=
  (get_packages_keyed_exactness stGood qFoo (by decide)).2 [rpFoo]
    (by decide) rpFoo

/-- Collecting resolutions short-circuits: when some query in the batch
fails to resolve, the whole collection is the first such error. -/
theorem resolveAll_error_of_failure
    (sel : List ResolvedPackage → Except ε ResolvedPackage)
    (st : PackageStorage) :
    ∀ names : List PackageQuery,
      (∃ q ∈ names, (resolvePackage sel st q).toOption = none) →
      ∃ e, resolveAll sel st names = .error e ∧
        ∃ q ∈ names, resolvePackage sel st q = .error e := by
  intro names
  induction names with
  | nil => rintro ⟨q, hq, _⟩; exact absurd hq (List.not_mem_nil q)
  | cons q0 qs ih =>
    rintro ⟨q, hq, hfail⟩
    cases hr : resolvePackage sel st q0 with
    | error e =>
      refine ⟨e, ?_, q0, List.mem_cons_self .., hr⟩
      unfold resolveAll
      rw [hr]
    | ok p =>
      have hqs : ∃ q1 ∈ qs, (resolvePackage sel st q1).toOption = none := by
        rcases List.mem_cons.mp hq with rfl | hmem
        · rw [hr] at hfail; simp [Except.toOption] at hfail
        · exact ⟨q, hmem, hfail⟩
      obtain ⟨e, hre, q1, hq1, herr⟩ := ih hqs
      refine ⟨e, ?_, q1, List.mem_cons_of_mem _ hq1, herr⟩
      unfold resolveAll
      rw [hr, hre]

/-- C3: `install_packages` resolves the whole batch up front; if any name
fails to resolve it returns that resolution error with no install
attempted, the shared installed-packages record unchanged, and no
succeeded/attempted count reported. -/
theorem install_fail_fast_on_resolution
    (sel : List ResolvedPackage → Except ε ResolvedPackage)
    (installOne : Nat → Nat → ResolvedPackage → α → Bool × α)
    (st : PackageStorage) (package_names : List PackageQuery) (record : α)
    (h : ∃ q ∈ package_names, (resolvePackage sel st q).toOption = none) :
    ∃ e, installPackages sel installOne st package_names record =
        ⟨record, [], none, some e⟩ ∧
      ∃ q ∈ package_names, resolvePackage sel st q = .error e := by
  obtain ⟨e, hre, hq⟩ := resolveAll_error_of_failure sel st package_names h
  refine ⟨e, ?_, hq⟩
  unfold installPackages
  rw [hre]

/-- Witness for C3: a batch containing the query "foo" against the empty
registry fails before any install. -/
theorem install_fail_fast_on_resolution_witness :
    ∃ e, installPackages selW installOneW PackageStorage.new [qFoo] () =
        ⟨(), [], none, some e⟩ ∧
      ∃ q ∈ [qFoo], resolvePackage selW PackageStorage.new q = .error e :=
  install_fail_fast_on_resolution selW installOneW PackageStorage.new [qFoo] ()
    ⟨qFoo, List.mem_cons_self .., by decide⟩

/-- Sequential install loop counts exactly the successful per-package
outcomes, whatever the start index and record. -/
theorem runSequential_count
    (installOne : Nat → Nat → ResolvedPackage → α → Bool × α)
    (outcome : ResolvedPackage → Bool) (total : Nat)
    (houtcome : ∀ i n p r, (installOne i n p r).1 = outcome p) :
    ∀ (l : List ResolvedPackage) (idx : Nat) (record : α),
      (runSequential installOne total idx record l).2 = l.countP outcome := by
  intro l
  induction l with
  | nil => intro idx record; simp [runSequential]
  | cons p rest ih =>
    intro idx record
    unfold runSequential
    dsimp only
    rw [ih, List.countP_cons, houtcome]
    exact Nat.add_comm _ _

/-- The shared atomic counter of the parallel branch accumulates one unit
per successful completion, in any completion order. -/
theorem foldl_install_count (outcome : ResolvedPackage → Bool) :
    ∀ (l : List ResolvedPackage) (n : Nat),
      l.foldl (fun n p => if outcome p then n + 1 else n) n =
        n + l.countP outcome := by
  intro l
  induction l with
  | nil => intro n; simp
  | cons p rest ih =>
    intro n
    rw [List.foldl_cons, List.countP_cons, ih]
    cases hop : outcome p
    · simp [hop]
    · simp [hop]
      omega

/-- C6: on a fully resolved batch, `install_packages` always reports a
succeeded/attempted count with `succeeded = number of per-package successes
≤ attempted = number of resolved packages`, and the parallel branch's
counter yields the same value for any completion order of the same
per-package outcomes. -/
theorem install_report_counts
    (sel : List ResolvedPackage → Except ε ResolvedPackage)
    (installOne : Nat → Nat → ResolvedPackage → α → Bool × α)
    (st : PackageStorage) (package_names : List PackageQuery) (record : α)
    (outcome : ResolvedPackage → Bool)
    (resolved completed : List ResolvedPackage)
    (hres : resolveAll sel st package_names = .ok resolved)
    (houtcome : ∀ i n p r, (installOne i n p r).1 = outcome p)
    (hperm : completed.Perm resolved) :
    ∃ rec2, installPackages sel installOne st package_names record =
        ⟨rec2, resolved, some (resolved.countP outcome, resolved.length),
          none⟩ ∧
      resolved.countP outcome ≤ resolved.length ∧
      parallelInstallCount outcome completed = resolved.countP outcome := by
  refine ⟨(runSequential installOne resolved.length 0 record resolved).1,
    ?_, List.countP_le_length _, ?_⟩
  · unfold installPackages
    rw [hres]
    dsimp only
    rw [runSequential_count installOne outcome resolved.length houtcome]
  · unfold parallelInstallCount
    rw [foldl_install_count]
    simpa using hperm.countP_eq outcome

/-- Witness for C6: a singleton fully resolved batch reports 1/1. -/
theorem install_report_counts_witness :
    ∃ rec2, installPackages selW installOneW stGood [qFoo] () =
        ⟨rec2, [rpFoo],
          some (List.countP outcomeTrue [rpFoo], List.length [rpFoo]),
          none⟩ ∧
      List.countP outcomeTrue [rpFoo] ≤ List.length [rpFoo] ∧
      parallelInstallCount outcomeTrue [rpFoo] =
        List.countP outcomeTrue [rpFoo] :=
  install_report_counts selW installOneW stGood [qFoo] () outcomeTrue
    [rpFoo] [rpFoo] (by rfl) (fun _ _ _ _ => rfl) (List.Perm.refl _)

/-- Removal loop with every removal succeeding removes the whole list in
order. -/
theorem removeResolved_all_ok (removeOne : ResolvedPackage → Except ρ Unit) :
    ∀ l, (∀ x ∈ l, removeOne x = .ok ()) →
      removeResolved removeOne l = (l, none) := by
  intro l
  induction l with
  | nil => intro _; rfl
  | cons p rest ih =>
    intro h
    unfold removeResolved
    rw [h p (List.mem_cons_self ..)]
    dsimp only
    rw [ih fun x hx => h x (List.mem_cons_of_mem _ hx)]

/-- Removal loop stops at the first failing removal: the packages before it
are removed, the failure is returned, and the packages after it are never
touched. -/
theorem removeResolved_abort (removeOne : ResolvedPackage → Except ρ Unit)
    (e : ρ) (pk : ResolvedPackage) (post : List ResolvedPackage) :
    ∀ pre, (∀ x ∈ pre, removeOne x = .ok ()) → removeOne pk = .error e →
      removeResolved removeOne (pre ++ pk :: post) = (pre, some e) := by
  intro pre
  induction pre with
  | nil =>
    intro _ hpk
    rw [List.nil_append]
    unfold removeResolved
    rw [hpk]
  | cons p rest ih =>
    intro hok hpk
    rw [List.cons_append]
    unfold removeResolved
    rw [hok p (List.mem_cons_self ..)]
    dsimp only
    rw [ih (fun x hx => hok x (List.mem_cons_of_mem _ hx)) hpk]

/-- Counterexample for C4: with two resolvable queries whose first removal
fails (and whose second removal would succeed), `remove_packages` removes
nothing further — the second resolved package is absent from the removed
list, refuting "does not stop the removal of the remaining resolved
packages". -/
theorem remove_does_not_continue_after_failure :
    resolvedForRemoval selW stTwo [qFoo, qBaz] = [rpFoo, rpBaz] ∧
    removeFailFoo rpFoo = .error () ∧
    removeFailFoo rpBaz = .ok () ∧
    removePackages selW removeFailFoo stTwo [qFoo, qBaz] = ([], some ()) :=
  ⟨by decide, by rfl, by rfl, by decide⟩

/-- C4 amended: `remove_packages` silently skips every name whose
resolution fails (dropping it changes nothing) and removes the resolved
packages sequentially in input order; a failure removing one resolved
package is surfaced as the function's error and ABORTS the removal of the
remaining resolved packages (the packages before the failure stay
removed). -/
theorem remove_skips_unresolved_and_aborts
    (sel : List ResolvedPackage → Except ε ResolvedPackage)
    (removeOne : ResolvedPackage → Except ρ Unit) (st : PackageStorage) :
    (∀ q ns1 ns2, (resolvePackage sel st q).toOption = none →
      removePackages sel removeOne st (ns1 ++ q :: ns2) =
        removePackages sel removeOne st (ns1 ++ ns2)) ∧
    (∀ ns, (∀ x ∈ resolvedForRemoval sel st ns, removeOne x = .ok ()) →
      removePackages sel removeOne st ns =
        (resolvedForRemoval sel st ns, none)) ∧
    (∀ ns pre pk post e, resolvedForRemoval sel st ns = pre ++ pk :: post →
      (∀ x ∈ pre, removeOne x = .ok ()) → removeOne pk = .error e →
      removePackages sel removeOne st ns = (pre, some e)) := by
  refine ⟨?_, ?_, ?_⟩
  · intro q ns1 ns2 hq
    unfold removePackages resolvedForRemoval
    rw [List.filterMap_append, List.filterMap_append, List.filterMap_cons, hq]
  · intro ns h
    unfold removePackages
    exact removeResolved_all_ok removeOne _ h
  · intro ns pre pk post e hsplit hok hpk
    unfold removePackages
    rw [hsplit]
    exact removeResolved_abort removeOne e pk post pre hok hpk

/-- Witness for C4: the abort behaviour evaluated on the two-package
registry with a failing first removal. -/
theorem remove_skips_unresolved_and_aborts_witness :
    removePackages selW removeFailFoo stTwo [qFoo, qBaz] = ([], some ()) :=
  (remove_skips_unresolved_and_aborts selW removeFailFoo stTwo).2.2
    [qFoo, qBaz] [] rpFoo [rpBaz] () (by decide)
    (fun x hx => absurd hx (List.not_mem_nil x)) (by rfl)

/-- Membership in the scored list of `search`: exactly the registry's
package occurrences passing the variant hard filter, scored 2 on exact
(case-adjusted) name equality and 1 on proper substring containment. -/
theorem mem_collectScored_iff (st : PackageStorage) (pn : Str) (cs : Bool)
    (variant : Option Str) (s : Nat) (p : Package) (c r : Str) :
    (s, p, c, r) ∈ collectScored st pn cs variant ↔
      (InRegistry st r c p ∧
       (variant = none ∨ p.variant = variant) ∧
       ((s = 2 ∧ caseName cs p = pn) ∨
        (s = 1 ∧ caseName cs p ≠ pn ∧
          containsSub pn (caseName cs p) = true))) := by
  constructor
  · intro hmem
    unfold collectScored at hmem
    rw [List.mem_flatMap] at hmem
    obtain ⟨re, hre, hmem⟩ := hmem
    rw [List.mem_flatMap] at hmem
    obtain ⟨ce, hce, hmem⟩ := hmem
    rw [List.mem_flatMap] at hmem
    obtain ⟨ne1, hne, hmem⟩ := hmem
    rw [List.mem_filterMap] at hmem
    obtain ⟨pkg, hpkg, heq⟩ := hmem
    dsimp only at heq
    by_cases h2 : caseName cs pkg = pn
    · have hb2 : (caseName cs pkg == pn) = true := by simpa using h2
      simp only [hb2, if_true, Option.some_bind] at heq
      cases hv : (variant.isNone || pkg.variant == variant) with
      | false => rw [hv] at heq; simp at heq
      | true =>
        rw [hv] at heq
        simp only [if_true, Option.some.injEq, Prod.mk.injEq] at heq
        obtain ⟨hs, hp, hc, hr⟩ := heq
        subst hs; subst hp; subst hc; subst hr
        have hv2 : variant = none ∨ pkg.variant = variant := by
          simpa using hv
        exact ⟨⟨re, hre, rfl, ce, hce, rfl, ne1, hne, hpkg⟩, hv2,
          Or.inl ⟨rfl, h2⟩⟩
    · have hb2 : (caseName cs pkg == pn) = false := by simpa using h2
      simp only [hb2, Bool.false_eq_true, if_false] at heq
      cases h1 : containsSub pn (caseName cs pkg) with
      | false => rw [h1] at heq; simp at heq
      | true =>
        rw [h1] at heq
        simp only [if_true, Option.some_bind] at heq
        cases hv : (variant.isNone || pkg.variant == variant) with
        | false => rw [hv] at heq; simp at heq
        | true =>
          rw [hv] at heq
          simp only [if_true, Option.some.injEq, Prod.mk.injEq] at heq
          obtain ⟨hs, hp, hc, hr⟩ := heq
          subst hs; subst hp; subst hc; subst hr
          have hv2 : variant = none ∨ pkg.variant = variant := by
            simpa using hv
          exact ⟨⟨re, hre, rfl, ce, hce, rfl, ne1, hne, hpkg⟩, hv2,
            Or.inr ⟨rfl, h2, h1⟩⟩
  · rintro ⟨hreg, hvar, hscore⟩
    obtain ⟨re, hre, hr1, ce, hce, hc1, ne1, hne, hpkg⟩ := hreg
    unfold collectScored
    rw [List.mem_flatMap]
    refine ⟨re, hre, ?_⟩
    rw [List.mem_flatMap]
    refine ⟨ce, hce, ?_⟩
    rw [List.mem_flatMap]
    refine ⟨ne1, hne, ?_⟩
    rw [List.mem_filterMap]
    refine ⟨p, hpkg, ?_⟩
    dsimp only
    have hv : (variant.isNone || p.variant == variant) = true := by
      rcases hvar with h | h
      · simp [h]
      · simp [h]
    rcases hscore with ⟨hs, hname⟩ | ⟨hs, hname, hcont⟩
    · have hb : (caseName cs p == pn) = true := by simpa using hname
      subst hs; subst hc1; subst hr1
      simp [hb, hv]
    · have hb : (caseName cs p == pn) = false := by simpa using hname
      subst hs; subst hc1; subst hr1
      simp [hb, hv, hcont]

/-- Inserting an element whose score is at least every score in the list
puts it in front. -/
theorem insertScoredDesc_front (x : Nat × Package × Str × Str) :
    ∀ l, (∀ y ∈ l, y.1 ≤ x.1) → insertScoredDesc x l = x :: l := by
  intro l hl
  cases l with
  | nil => rfl
  | cons y ys =>
    unfold insertScoredDesc
    rw [if_pos (hl y (List.mem_cons_self ..))]

/-- Inserting an element skips a prefix of strictly larger scores. -/
theorem insertScoredDesc_skip (x : Nat × Package × Str × Str) :
    ∀ A B, (∀ a ∈ A, x.1 < a.1) →
      insertScoredDesc x (A ++ B) = A ++ insertScoredDesc x B := by
  intro A
  induction A with
  | nil => intro B _; rfl
  | cons a A2 ih =>
    intro B hA
    rw [List.cons_append]
    unfold insertScoredDesc
    rw [if_neg (by
      have := hA a (List.mem_cons_self ..)
      omega)]
    rw [ih B fun y hy => hA y (List.mem_cons_of_mem _ hy), List.cons_append]
    cases B with
    | nil => rfl
    | cons y ys => rfl

/-- Stable descending sort of a 2/1-scored list is the score-2 entries in
encounter order followed by the score-1 entries in encounter order. -/
theorem sortScoredDesc_partition :
    ∀ l : List (Nat × Package × Str × Str),
      (∀ e ∈ l, e.1 = 2 ∨ e.1 = 1) →
      sortScoredDesc l =
        l.filter (fun e => e.1 == 2) ++ l.filter (fun e => e.1 == 1) := by
  intro l
  induction l with
  | nil => intro _; rfl
  | cons x xs ih =>
    intro h
    have hxs : ∀ e ∈ xs, e.1 = 2 ∨ e.1 = 1 :=
      fun e he => h e (List.mem_cons_of_mem _ he)
    have h2mem : ∀ y ∈ xs.filter (fun e => e.1 == 2), y.1 = 2 := by
      intro y hy
      have := (List.mem_filter.mp hy).2
      simpa using this
    have h1mem : ∀ y ∈ xs.filter (fun e => e.1 == 1), y.1 = 1 := by
      intro y hy
      have := (List.mem_filter.mp hy).2
      simpa using this
    unfold sortScoredDesc
    rw [ih hxs]
    rcases h x (List.mem_cons_self ..) with hx | hx
    · rw [insertScoredDesc_front x _ (by
        intro y hy
        rcases List.mem_append.mp hy with hy2 | hy1
        · rw [h2mem y hy2, hx]
        · rw [h1mem y hy1, hx]; omega)]
      rw [List.filter_cons, List.filter_cons]
      have hb2 : (x.1 == 2) = true := by simpa using hx
      have hb1 : (x.1 == 1) = false := by simp [hx]
      rw [hb2, hb1]
      simp
    · rw [insertScoredDesc_skip x _ _ (by
        intro a ha
        rw [h2mem a ha, hx]
        omega)]
      rw [insertScoredDesc_front x _ (by
        intro y hy
        rw [h1mem y hy, hx])]
      rw [List.filter_cons, List.filter_cons]
      have hb2 : (x.1 == 2) = false := by simp [hx]
      have hb1 : (x.1 == 1) = true := by simpa using hx
      rw [hb2, hb1]
      simp

/-- C2: `search` scores a package 2 when its (case-adjusted) name equals the
query name, 1 when it merely contains it, and excludes it otherwise; the
variant qualifier is an exact hard filter never case-adjusted; and the
output is exactly the score-2 entries in encounter order followed by the
score-1 entries in encounter order — so every exact match ranks strictly
before every substring match, ties preserve encounter order, and no score-0
entry appears. -/
theorem search_scores_and_orders (st : PackageStorage) (query : PackageQuery)
    (cs : Bool) :
    (∀ s p c r,
      ((s, p, c, r) ∈
          collectScored st (searchQueryName query cs) cs query.variant ↔
        (InRegistry st r c p ∧
         (query.variant = none ∨ p.variant = query.variant) ∧
         ((s = 2 ∧ caseName cs p = searchQueryName query cs) ∨
          (s = 1 ∧ caseName cs p ≠ searchQueryName query cs ∧
            containsSub (searchQueryName query cs) (caseName cs p) =
              true))))) ∧
    search st query cs =
      ((collectScored st (searchQueryName query cs) cs query.variant).filter
          (fun e => e.1 == 2)).map (fun e => ⟨e.2.2.2, e.2.2.1, e.2.1⟩) ++
      ((collectScored st (searchQueryName query cs) cs query.variant).filter
          (fun e => e.1 == 1)).map (fun e => ⟨e.2.2.2, e.2.2.1, e.2.1⟩) := by
  constructor
  · intro s p c r
    exact mem_collectScored_iff st (searchQueryName query cs) cs
      query.variant s p c r
  · have hsc : ∀ e ∈ collectScored st (searchQueryName query cs) cs
        query.variant, e.1 = 2 ∨ e.1 = 1 := by
      rintro ⟨s, p, c, r⟩ he
      have := (mem_collectScored_iff st (searchQueryName query cs) cs
        query.variant s p c r).mp he
      rcases this.2.2 with ⟨hs, _⟩ | ⟨hs, _, _⟩
      · exact Or.inl hs
      · exact Or.inr hs
    unfold search
    dsimp only
    rw [sortScoredDesc_partition _ hsc, List.filter_append]
    have hid2 : ((collectScored st (searchQueryName query cs) cs
        query.variant).filter (fun e => e.1 == 2)).filter
          (fun e => decide (0 < e.1)) =
        (collectScored st (searchQueryName query cs) cs query.variant).filter
          (fun e => e.1 == 2) := by
      rw [List.filter_eq_self]
      intro a ha
      have := (List.mem_filter.mp ha).2
      have ha2 : a.1 = 2 := by simpa using this
      simp [ha2]
    have hid1 : ((collectScored st (searchQueryName query cs) cs
        query.variant).filter (fun e => e.1 == 1)).filter
          (fun e => decide (0 < e.1)) =
        (collectScored st (searchQueryName query cs) cs query.variant).filter
          (fun e => e.1 == 1) := by
      rw [List.filter_eq_self]
      intro a ha
      have := (List.mem_filter.mp ha).2
      have ha1 : a.1 = 1 := by simpa using this
      simp [ha1]
    rw [hid2, hid1, List.map_append]

/-- Step invariant of the permit pool: any run keeps the number of held
permits within the capacity, and adds one `finish` event per task that
reaches the done phase. -/
theorem poolExec_invariant (cap : Nat) :
    ∀ (events : List PoolEvent) (st0 st : List TaskPhase),
      poolExec cap st0 events = some st →
      (holdingCount st0 ≤ cap → holdingCount st ≤ cap) ∧
      ∀ i, finishCountFor i events +
          (if st0[i]? = some TaskPhase.done then 1 else 0) =
        (if st[i]? = some TaskPhase.done then 1 else 0) := by
  intro events
  induction events with
  | nil =>
    intro st0 st hex
    have hst : st0 = st := by
      unfold poolExec at hex
      injection hex
    subst hst
    exact ⟨fun h => h, fun i => by simp [finishCountFor]⟩
  | cons e es ih =>
    intro st0 st hex
    unfold poolExec at hex
    cases hstep : poolStep cap st0 e with
    | none => rw [hstep] at hex; simp at hex
    | some st1 =>
      rw [hstep] at hex
      dsimp only at hex
      obtain ⟨ihb, ihc⟩ := ih st1 st hex
      cases e with
      | acquire i0 =>
        unfold poolStep at hstep
        dsimp only at hstep
        cases hget : st0[i0]? with
        | none => rw [hget] at hstep; simp at hstep
        | some ph =>
          rw [hget] at hstep
          cases ph with
          | holding => simp at hstep
          | done => simp at hstep
          | pending =>
            dsimp only at hstep
            by_cases hcap : holdingCount st0 < cap
            · rw [if_pos hcap] at hstep
              have hst1 : st0.set i0 TaskPhase.holding = st1 := by
                injection hstep
              obtain ⟨hlt, hgete⟩ := List.getElem?_eq_some.mp hget
              constructor
              · intro _
                apply ihb
                rw [← hst1]
                unfold holdingCount at hcap ⊢
                rw [List.countP_set _ _ _ _ hlt, hgete]
                simp
                omega
              · intro i
                have hfc : finishCountFor i (PoolEvent.acquire i0 :: es) =
                    finishCountFor i es := by
                  unfold finishCountFor
                  rw [List.countP_cons]
                  simp
                rw [hfc]
                have hflag : (if st1[i]? = some TaskPhase.done then 1 else 0) =
                    (if st0[i]? = some TaskPhase.done then 1 else 0) := by
                  rw [← hst1]
                  by_cases hi : i0 = i
                  · subst hi
                    rw [List.getElem?_set_self hlt, hget]
                    simp
                  · rw [List.getElem?_set_ne hi]
                rw [← hflag]
                exact ihc i
            · rw [if_neg hcap] at hstep
              simp at hstep
      | finish i0 b =>
        unfold poolStep at hstep
        dsimp only at hstep
        cases hget : st0[i0]? with
        | none => rw [hget] at hstep; simp at hstep
        | some ph =>
          rw [hget] at hstep
          cases ph with
          | pending => simp at hstep
          | done => simp at hstep
          | holding =>
            dsimp only at hstep
            have hst1 : st0.set i0 TaskPhase.done = st1 := by
              injection hstep
            obtain ⟨hlt, hgete⟩ := List.getElem?_eq_some.mp hget
            constructor
            · intro hb0
              apply ihb
              rw [← hst1]
              unfold holdingCount
              rw [List.countP_set _ _ _ _ hlt]
              rw [hgete]
              have hh : (TaskPhase.holding == TaskPhase.holding) = true := by
                decide
              have hd : (TaskPhase.done == TaskPhase.holding) = false := by
                decide
              rw [hh, hd]
              simp
              unfold holdingCount at hb0
              omega
            · intro i
              have hfc : finishCountFor i (PoolEvent.finish i0 b :: es) =
                  finishCountFor i es + (if i0 = i then 1 else 0) := by
                unfold finishCountFor
                rw [List.countP_cons]
                by_cases hi : i0 = i
                · simp [hi]
                · simp [hi]
              rw [hfc]
              by_cases hi : i0 = i
              · subst hi
                have h0 : (if st0[i0]? = some TaskPhase.done then 1 else 0)
                    = 0 := by
                  rw [hget]
                  simp
                have h1 : (if st1[i0]? = some TaskPhase.done then 1 else 0)
                    = 1 := by
                  rw [← hst1, List.getElem?_set_self hlt]
                  simp
                have := ihc i0
                rw [h1] at this
                rw [h0]
                have hd : (if i0 = i0 then (1 : Nat) else 0) = 1 := by simp
                rw [hd]
                omega
              · have hflag : (if st1[i]? = some TaskPhase.done then 1 else 0) =
                    (if st0[i]? = some TaskPhase.done then 1 else 0) := by
                  rw [← hst1, List.getElem?_set_ne hi]
                have := ihc i
                rw [hflag] at this
                simp only [if_neg hi]
                omega

/-- The initial pool holds no permits. -/
theorem holdingCount_initialPool (m : Nat) :
    holdingCount (initialPool m) = 0 := by
  unfold holdingCount initialPool
  rw [List.countP_replicate]
  simp

/-- C8: in the bounded-parallel install pool with the configured capacity
(`parallel_limit`, default 2) and `m` resolved packages, every valid
schedule keeps the number of concurrently held permits — hence of installs
in the Installing state, which runs strictly inside the permit scope —
within the capacity, and each task's permit is released exactly once
(exactly one `finish` event, success or error) precisely when that task has
exited. -/
theorem bounded_pool_cap_and_single_release
    (parallel_limit : Option Nat) (m : Nat) (events : List PoolEvent)
    (st : List TaskPhase) (i : Nat)
    (_hm : semaphoreCapacity parallel_limit ≤ m)
    (hex : poolExec (semaphoreCapacity parallel_limit) (initialPool m)
      events = some st) :
    holdingCount st ≤ semaphoreCapacity parallel_limit ∧
    finishCountFor i events =
      (if st[i]? = some TaskPhase.done then 1 else 0) := by
  obtain ⟨hb, hc⟩ := poolExec_invariant (semaphoreCapacity parallel_limit)
    events (initialPool m) st hex
  constructor
  · apply hb
    rw [holdingCount_initialPool]
    exact Nat.zero_le _
  · have hflag : (if (initialPool m)[i]? = some TaskPhase.done then 1 else 0)
      = 0 := by
      cases hlt : (initialPool m)[i]? with
      | none => simp
      | some ph =>
        obtain ⟨hlen, hgete⟩ := List.getElem?_eq_some.mp hlt
        have hmem : ph ∈ initialPool m := hgete ▸ List.getElem_mem hlen
        have hph : ph = TaskPhase.pending := List.eq_of_mem_replicate hmem
        subst hph
        simp
    have := hc i
    rw [hflag] at this
    simpa using this

/-- Witness for C8: the two-task schedule under the default capacity ends
with both permits released exactly once. -/
theorem bounded_pool_cap_and_single_release_witness :
    holdingCount poolW ≤ semaphoreCapacity none ∧
    finishCountFor 0 eventsW =
      (if poolW[0]? = some TaskPhase.done then 1 else 0) :=
  bounded_pool_cap_and_single_release none 2 eventsW poolW 0 (by decide)
    (by decide)

end Soar
